import Mathlib

/-! Shallow embedding of the polynomial arithmetic engine of the
computer_algebra repository (`src/polynomial.py` and `src/tools.py`).

Conventions used throughout:
* Python/numpy integer arrays are modelled as `List Int`. The arrays hold
  64-bit integers; the model uses unbounded integers, which agrees with the
  implementation whenever all intermediate values stay below `2 ^ 63`
  (theorems quantifying over arbitrary polynomials carry an explicit
  smallness hypothesis on the base where coefficient arithmetic occurs).
* Python `//` is `Int.fdiv` and Python `%` is `Int.fmod` (floor division
  conventions, remainder signed like the divisor).
* Raising (assert, ValueError, IndexError) is modelled by `Except String`.
* The `while` loops are modelled by structural recursion on an explicit
  fuel argument; running out of fuel is a distinguished error value, and
  the fuel supplied at each call site dominates the true iteration count on
  the inputs the theorems consider.
-/

namespace CompAlg

/-- Drop trailing zero coefficients, as `np.trim_zeros(coefs, "b")` does in
`Polynomial.__init__`. -/
def trimZeros (l : List Int) : List Int :=
  (l.reverse.dropWhile (fun c => c == 0)).reverse

/-- The magnitude check performed by the `check_array` decorator in
`tools.py`: every entry must satisfy `|c| < base`. -/
def checkArray (l : List Int) (base : Int) : Bool :=
  l.all (fun c => decide (|c| < base))

/-- The state of a `Polynomial` object: the (trimmed) coefficient array
`self.__coefs`, the base `self.__base`, the cached degree `self.__deg` and
leading coefficient `self.__lc`, and the optional carries array. -/
structure Polynomial where
  coefs : List Int
  base : Int
  deg : Int
  lc : Int
  carries : Option (List Int)

/-- Model of `Polynomial.__init__` under the `check_array` decorator, called with a
plain Python list (the way every call site in `polynomial.py` calls it).
`np.array` of an empty list has dtype `float64`, so the decorator's dtype
assertion fails on an empty input list; the magnitude assertion checks the
raw (pre-reverse, pre-trim) input. The constructor then optionally
reverses, trims trailing zeros, stores `deg = len - 1`, and caches
`lc = coefs[-1]` only when `deg > 0` (so a degree-0 polynomial caches 0). -/
def mkPolynomial (coefs : List Int) (base : Int) (reverse : Bool)
    (carries : Option (List Int)) : Except String Polynomial :=
  if coefs.isEmpty then
    .error "Coefficients must be integers!"
  else if checkArray coefs base then
    let c := if reverse then coefs.reverse else coefs
    let t := trimZeros c
    .ok { coefs := t, base := base, deg := (t.length : Int) - 1,
          lc := if (t.length : Int) - 1 > 0 then t.getLastD 0 else 0,
          carries := carries }
  else
    .error "Coefficients must less than the base!"

/-- Model of `Polynomial.copy`: reconstructs through `__init__` from the stored
numpy array; the int64 dtype is preserved even when the array is empty, so
only the magnitude assertion can fire. -/
def polyCopy (p : Polynomial) : Except String Polynomial :=
  if checkArray p.coefs p.base then
    let t := trimZeros p.coefs
    .ok { coefs := t, base := p.base, deg := (t.length : Int) - 1,
          lc := if (t.length : Int) - 1 > 0 then t.getLastD 0 else 0,
          carries := p.carries }
  else
    .error "Coefficients must less than the base!"

/-- Reading a numpy array at a (possibly negative) scalar index: negative
indices count from the end of the array; out-of-range indices raise
`IndexError`. -/
def npGetInt (l : List Int) (i : Int) : Except String Int :=
  if 0 ≤ i then
    if h : i.toNat < l.length then .ok (l.get ⟨i.toNat, h⟩)
    else .error "IndexError"
  else
    if h : 0 ≤ (l.length : Int) + i ∧ ((l.length : Int) + i).toNat < l.length then
      .ok (l.get ⟨((l.length : Int) + i).toNat, h.2⟩)
    else .error "IndexError"

/-- Writing a numpy array at a (possibly negative) scalar index. -/
def npSetInt (l : List Int) (i v : Int) : Except String (List Int) :=
  if 0 ≤ i then
    if i.toNat < l.length then .ok (l.set i.toNat v)
    else .error "IndexError"
  else
    if 0 ≤ (l.length : Int) + i ∧ ((l.length : Int) + i).toNat < l.length then
      .ok (l.set ((l.length : Int) + i).toNat v)
    else .error "IndexError"

/-- Model of `Polynomial.__getitem__`: a key at most the cached degree is read from
the numpy array (a negative key therefore indexes from the end), a larger
key reads as 0. -/
def getitem (p : Polynomial) (key : Int) : Except String Int :=
  if key ≤ p.deg then npGetInt p.coefs key else .ok 0

/-- Model of `Polynomial.__getitem__` restricted to natural keys, where it is total:
the arithmetic loops only index with `i` in `range(new_len)`. -/
def coefAt (p : Polynomial) (i : Nat) : Int :=
  if (i : Int) ≤ p.deg then p.coefs.getD i 0 else 0

/-- Model of `Polynomial.__setitem__`. For `key > deg` the code runs
`self.__coefs += [0] * (key - self.__deg)`, but on a numpy array `+=` is
elementwise in-place addition (with broadcasting), not list extension: it
either raises a broadcast `ValueError` (when the length-`k` zero vector
does not broadcast in place onto the length-`n` array, i.e. `k ≠ n` and
`k ≠ 1`) or leaves the array contents and length unchanged, after which
`self.__coefs[key] = value` raises `IndexError` because `key ≥ n`. The
subsequent `deg`/`lc` updates are never reached, and a successful in-range
write touches neither cached field. -/
def setitem (p : Polynomial) (key value : Int) : Except String Polynomial :=
  if |value| ≥ p.base then .error "The set value must be modulo base!"
  else if key ≤ p.deg then
    match npSetInt p.coefs key value with
    | .ok c => .ok { p with coefs := c }
    | .error e => .error e
  else
    let n := p.coefs.length
    let k := (key - p.deg).toNat
    if k = n ∨ k = 1 then .error "IndexError"
    else .error "operands could not be broadcast together"

/-- Model of `Polynomial.__eq__` under the `check_objects` decorator. The body is
`self.__coefs == other.coefs() and self.__base == other.base()`: numpy `==`
is elementwise, and Python `and` takes the truth value of its left operand,
which raises `ValueError` for arrays whose size is not 1 (numpy rejects the
truth value of multi-element arrays, and of empty arrays on current numpy);
arrays of incompatible (non-broadcastable) shapes compare as the scalar
`False`, while a length-1 array broadcasts against the other operand and
the truth value is again ambiguous when the broadcast result has more than
one element. -/
def polyEq (A B : Polynomial) : Except String Bool :=
  if B.base ≠ A.base then .error "The bases must match!"
  else if A.coefs.length = B.coefs.length then
    if A.coefs.length = 1 then
      .ok (decide (A.coefs = B.coefs) && decide (A.base = B.base))
    else .error "The truth value of an array with more than one element is ambiguous"
  else if A.coefs.length = 1 ∨ B.coefs.length = 1 then
    .error "The truth value of an array with more than one element is ambiguous"
  else .ok false

/-- Model of `Polynomial.__add__`: digitwise sum reduced with `% base`, with the
floor quotients recorded in a fresh carries array of length `new_len + 1`
(index 0 is left 0, index `i + 1` receives the quotient at digit `i`);
carries are recorded but not propagated into the coefficients. The result
list goes through the constructor again. -/
def polyAdd (A B : Polynomial) : Except String Polynomial :=
  if B.base ≠ A.base then .error "The bases must match!"
  else
    let n := (max A.deg B.deg + 1).toNat
    mkPolynomial
      ((List.range n).map (fun i => Int.fmod (coefAt A i + coefAt B i) A.base))
      A.base false
      (some (0 :: (List.range n).map
        (fun i => Int.fdiv (coefAt A i + coefAt B i) A.base)))

/-- Model of `Polynomial.__sub__`: as addition with `-` in place of `+`, except that
the carries array is allocated with `[0] * (new_len + 2)`, so it keeps one
extra trailing zero entry beyond the `new_len + 1` entries addition uses. -/
def polySub (A B : Polynomial) : Except String Polynomial :=
  if B.base ≠ A.base then .error "The bases must match!"
  else
    let n := (max A.deg B.deg + 1).toNat
    mkPolynomial
      ((List.range n).map (fun i => Int.fmod (coefAt A i - coefAt B i) A.base))
      A.base false
      (some ((0 :: (List.range n).map
        (fun i => Int.fdiv (coefAt A i - coefAt B i) A.base)) ++ [0]))

/-- Model of `Polynomial._slow_mul`, which `__mul__` delegates to: output index `i`
accumulates `self[j] * other[i - j]` for `j in range(i)` only, so the
`j = i` term `self[i] * other[0]` is left out of the convolution sum. -/
def polyMul (A B : Polynomial) : Except String Polynomial :=
  if B.base ≠ A.base then .error "The bases must match!"
  else
    let n := (A.deg + B.deg + 1).toNat
    let conv := fun (i : Nat) =>
      ((List.range i).map (fun j => coefAt A j * coefAt B (i - j))).sum
    mkPolynomial
      ((List.range n).map (fun i => Int.fmod (conv i) A.base))
      A.base false
      (some (0 :: (List.range n).map (fun i => Int.fdiv (conv i) A.base)))

/-- The `while r_upd != 0` loop of `unit_inv` in `tools.py`, with explicit
fuel; returns the final `(t, r)` pair. Python `//` is floor division. -/
def unitInvLoop : Nat → Int → Int → Int → Int → Except String (Int × Int)
  | 0, _, _, _, _ => .error "fuel exhausted"
  | fuel + 1, t, t1, r, r1 =>
    if r1 = 0 then .ok (t, r)
    else unitInvLoop fuel t1 (t - Int.fdiv r r1 * t1) r1 (r - Int.fdiv r r1 * r1)

/-- Model of `unit_inv(unit, b)` from `tools.py`: the extended Euclidean algorithm
on `(b, unit)` tracking the Bezout coefficient of `unit`; raises when the
final remainder exceeds 1, and normalizes a negative coefficient by adding
`b`. The fuel `unit.natAbs + 1` dominates the true iteration count because
`|r_upd|` strictly decreases from `|unit|` on every iteration. -/
def unit_inv (unit b : Int) : Except String Int :=
  match unitInvLoop (unit.natAbs + 1) 0 1 b unit with
  | .error e => .error e
  | .ok (t, r) =>
    if r > 1 then .error "Passed unit is not invertible!"
    else .ok (if t < 0 then t + b else t)

/-- The `while deg_r >= deg_b` loop of `Polynomial._slow_div`. The Python
loop copies `q_upd, r_upd` into `q, r` only at the top of the next
iteration (`if i != 0`), so on exit it returns the values held before the
final update; equivalently: recurse with the updated pair when the loop
condition still holds, and return the pre-update pair otherwise. The loop
must be entered with `r.deg ≥ other.deg`. -/
def divLoop (other : Polynomial) (base inv : Int) :
    Nat → Polynomial → Polynomial → Except String (Polynomial × Polynomial)
  | 0, _, _ => .error "fuel exhausted"
  | fuel + 1, q, r => do
    let tmp ← mkPolynomial
      (List.replicate (r.deg - other.deg).toNat 0 ++ [r.lc * inv]) base false none
    let qU ← polyAdd q tmp
    let prod ← polyMul tmp other
    let rU ← polySub r prod
    if rU.deg ≥ other.deg then divLoop other base inv fuel qU rU
    else .ok (q, r)

/-- Model of `Polynomial._slow_div`, which `__truediv__` delegates to: schoolbook
long division normalized by the modular inverse of the divisor's cached
leading coefficient. -/
def polyDiv (A B : Polynomial) : Except String (Polynomial × Polynomial) :=
  if B.base ≠ A.base then .error "The bases must match!"
  else do
    let q ← mkPolynomial [0] A.base false none
    let r ← polyCopy A
    let inv ← unit_inv B.lc A.base
    if r.deg ≥ B.deg then divLoop B A.base inv (r.deg.toNat + 2) q r
    else .ok (q, r)

/-- True exactly when an operation raised. -/
def isError {α : Type} : Except String α → Bool
  | .error _ => true
  | .ok _ => false

/-! Concrete polynomials used by the claim theorems below. Each is the
value `mkPolynomial` produces on the listed input (the theorems record
this equality explicitly where it matters). -/

/-- The zero polynomial over base 10, as produced by `Polynomial([0])`. -/
def pZero10 : Polynomial := ⟨[], 10, -1, 0, none⟩

/-- The value of `Polynomial([1], base=10)`. -/
def pOne10 : Polynomial := ⟨[1], 10, 0, 0, none⟩

/-- The value of `Polynomial([0, 1], base=10)`, i.e. the monomial x. -/
def pX10 : Polynomial := ⟨[0, 1], 10, 1, 1, none⟩

/-- The value of `Polynomial([0, 0, 7], base=10)`. -/
def pSeven : Polynomial := ⟨[0, 0, 7], 10, 2, 7, none⟩

/-- The value of `Polynomial([0, 3], base=10)`. -/
def pThreeX : Polynomial := ⟨[0, 3], 10, 1, 3, none⟩

/-- The value of `Polynomial([3, 2, 1], base=10)`. -/
def pAdd10A : Polynomial := ⟨[3, 2, 1], 10, 2, 1, none⟩

/-- The value of `Polynomial([8], base=10)`. -/
def pAdd10B : Polynomial := ⟨[8], 10, 0, 0, none⟩

/-- The value of `Polynomial([1, 1], base=2)`. -/
def pAdd2A : Polynomial := ⟨[1, 1], 2, 1, 1, none⟩

/-- The value of `Polynomial([1], base=2)`. -/
def pAdd2B : Polynomial := ⟨[1], 2, 0, 0, none⟩

/-- The value of `Polynomial([1, 2], base=10)`. -/
def pOneTwo : Polynomial := ⟨[1, 2], 10, 1, 2, none⟩

/-- The value of `Polynomial([5], base=10)`. -/
def pFive : Polynomial := ⟨[5], 10, 0, 0, none⟩

/-- The value of `Polynomial([3,2,1], 10) - Polynomial([8], 10)`. -/
def pSubRes : Polynomial := ⟨[5, 2, 1], 10, 2, 1, some [0, -1, 0, 0, 0]⟩

/-! Helper lemmas shared by the claim theorems. -/

/-- Field description of a successfully constructed polynomial. -/
theorem mkPolynomial_fields {coefs : List Int} {base : Int} {rev : Bool}
    {cs : Option (List Int)} {p : Polynomial}
    (h : mkPolynomial coefs base rev cs = .ok p) :
    p.coefs = trimZeros (if rev then coefs.reverse else coefs) ∧
    p.base = base ∧ p.carries = cs ∧
    p.deg = (p.coefs.length : Int) - 1 ∧
    p.lc = (if 1 ≤ p.deg then p.coefs.getLastD 0 else 0) := by
  unfold mkPolynomial at h
  split at h
  · exact absurd h (by simp)
  · split at h
    · injection h with h
      subst h
      refine ⟨rfl, rfl, rfl, rfl, ?_⟩
      simp only
      have hiff :
          ((trimZeros (if rev then coefs.reverse else coefs)).length : Int) - 1 > 0 ↔
          1 ≤ ((trimZeros (if rev then coefs.reverse else coefs)).length : Int) - 1 := by
        omega
      rw [if_congr hiff rfl rfl]
    · exact absurd h (by simp)

/-- A successful numpy write preserves the array length. -/
theorem npSetInt_length {l : List Int} {i v : Int} {c : List Int}
    (h : npSetInt l i v = .ok c) : c.length = l.length := by
  unfold npSetInt at h
  split at h <;> split at h <;>
    first
      | (injection h with h; subst h; exact List.length_set ..)
      | exact absurd h (by simp)

/-- A successful `__setitem__` is an in-range write: it replaces the
coefficient array by an equal-length update and touches neither cached
field nor the base. -/
theorem setitem_ok_fields {p q : Polynomial} {key value : Int}
    (h : setitem p key value = .ok q) :
    q.deg = p.deg ∧ q.lc = p.lc ∧ q.base = p.base ∧
    q.coefs.length = p.coefs.length := by
  unfold setitem at h
  split at h
  · exact absurd h (by simp)
  · split at h
    · split at h
      · next c hc =>
        injection h with h
        subst h
        exact ⟨rfl, rfl, rfl, npSetInt_length hc⟩
      · exact absurd h (by simp)
    · dsimp only at h
      split at h <;> exact absurd h (by simp)

/-- For opposite-signed integers the absolute value of the difference is
the sum of the absolute values. -/
theorem abs_sub_of_mul_nonpos {x y : Int} (h : x * y ≤ 0) :
    |x - y| = |x| + |y| := by
  rcases mul_nonpos_iff.mp h with ⟨hx, hy⟩ | ⟨hx, hy⟩
  · rw [abs_of_nonneg hx, abs_of_nonpos hy,
      abs_of_nonneg (by omega : (0 : Int) ≤ x - y)]
    ring
  · rw [abs_of_nonpos hx, abs_of_nonneg hy,
      abs_of_nonpos (by omega : x - y ≤ 0)]
    ring

/-- One Euclidean step keeps the gcd, in the nonnegative regime the loop
of `unit_inv` stays in. -/
theorem gcd_step {r r1 : Int} (hr : 0 ≤ r) (hr1 : 0 < r1) :
    Int.gcd r1 (r % r1) = Int.gcd r r1 := by
  obtain ⟨a, rfl⟩ := Int.eq_ofNat_of_zero_le hr
  obtain ⟨c, rfl⟩ := Int.eq_ofNat_of_zero_le (le_of_lt hr1)
  rw [← Int.ofNat_emod]
  simp only [Int.gcd, Int.natAbs_ofNat]
  rw [Nat.gcd_comm c (a % c), ← Nat.gcd_rec c a, Nat.gcd_comm c a]

/-! Claim theorems. -/

/-- C1: the claimed exact-product contract fails in the code. The inner
loop of `_slow_mul` runs `for j in range(i)`, dropping the `j = i` term of
the convolution, so the product of the nonzero constant polynomials
`Polynomial([1], 10) * Polynomial([1], 10)` evaluates to the zero
polynomial instead of the constant 1. -/
theorem C1_mul_of_constants_is_zero :
    mkPolynomial [1] 10 false none = .ok pOne10 ∧
    polyMul pOne10 pOne10 = .ok ⟨[], 10, -1, 0, some [0, 0]⟩ ∧
    Polynomial.coefs ⟨[], 10, -1, 0, some [0, 0]⟩ ≠ [1] :=
  ⟨rfl, rfl, by decide⟩

/-- C2: the claimed Euclidean-division contract `deg(r) < deg(B)` fails in
the code. Dividing `x` by `x` over base 10 (a divisor whose leading
coefficient 1 is a unit mod 10) returns the pair held before the final
loop update, namely quotient 0 and remainder `x` itself, whose degree
equals the divisor's degree. -/
theorem C2_div_remainder_degree_not_reduced :
    mkPolynomial [0, 1] 10 false none = .ok pX10 ∧
    Int.gcd pX10.lc pX10.base = 1 ∧
    polyDiv pX10 pX10 = .ok (pZero10, pX10) ∧
    ¬ pX10.deg < pX10.deg :=
  ⟨rfl, by decide, rfl, by decide⟩

/-- C3: the claimed termination/no-failure property of the division loop
fails in the code. Dividing `Polynomial([0,0,7], 10)` by
`Polynomial([0,3], 10)` (leading coefficient 3, a unit mod 10, inverse 7)
constructs the monomial term with the unreduced coefficient
`7 * 7 = 49 ≥ 10` in its first iteration, and the constructor's
`check_array` assertion raises. -/
theorem C3_div_crashes_on_unreduced_monomial :
    mkPolynomial [0, 0, 7] 10 false none = .ok pSeven ∧
    mkPolynomial [0, 3] 10 false none = .ok pThreeX ∧
    Int.gcd pThreeX.lc pThreeX.base = 1 ∧
    polyDiv pSeven pThreeX = .error "Coefficients must less than the base!" :=
  ⟨rfl, rfl, by decide, rfl⟩

/-- C4 (counterexample): the spec's worked example is not what the code
computes. In base 10, `[3,2,1] + [8]` yields coefficients `[1,2,1]` (the
recorded carry is not propagated into the next digit), not the claimed
`[1,3,1]`. -/
theorem C4_add_example_counterexample :
    mkPolynomial [3, 2, 1] 10 false none = .ok pAdd10A ∧
    mkPolynomial [8] 10 false none = .ok pAdd10B ∧
    polyAdd pAdd10A pAdd10B = .ok ⟨[1, 2, 1], 10, 2, 1, some [0, 1, 0, 0]⟩ ∧
    ([1, 2, 1] : List Int) ≠ [1, 3, 1] :=
  ⟨rfl, rfl, rfl, by decide⟩

/-- C4 (amended): what the two worked examples actually produce. In base
10, `[3,2,1] + [8]` gives coefficients `[1,2,1]` with carries `[0,1,0,0]`
(so the carry into index 1 is 1, as claimed, but it is not added into
coefficient 1); in base 2, `[1,1] + [1]` gives coefficients `[0,1]` with
carries `[0,1,0]` (the recorded carry out of digit 0 is again not fed into
digit 1). -/
theorem C4_add_examples_amended :
    mkPolynomial [3, 2, 1] 10 false none = .ok pAdd10A ∧
    mkPolynomial [8] 10 false none = .ok pAdd10B ∧
    polyAdd pAdd10A pAdd10B = .ok ⟨[1, 2, 1], 10, 2, 1, some [0, 1, 0, 0]⟩ ∧
    mkPolynomial [1, 1] 2 false none = .ok pAdd2A ∧
    mkPolynomial [1] 2 false none = .ok pAdd2B ∧
    polyAdd pAdd2A pAdd2B = .ok ⟨[0, 1], 2, 1, 1, some [0, 1, 0]⟩ :=
  ⟨rfl, rfl, rfl, rfl, rfl, rfl⟩

/-- C5: the claimed total boolean equality fails in the code. Comparing
`Polynomial([1,2], 10)` with itself raises, because the numpy elementwise
comparison array has two elements and Python's `and` asks for its truth
value. -/
theorem C5_eq_raises_on_multielement :
    mkPolynomial [1, 2] 10 false none = .ok pOneTwo ∧
    polyEq pOneTwo pOneTwo =
      .error "The truth value of an array with more than one element is ambiguous" :=
  ⟨rfl, rfl⟩

/-- C6 (counterexample): for the negative unit `-4` with modulus 10 the
gcd is 2, so the claim says `unit_inv` fails; the code instead returns 3
(the final remainder is negative, so the `r > 1` check does not fire), and
3 is not an inverse of `-4` modulo 10. -/
theorem C6_negative_unit_counterexample :
    Int.gcd (-4) 10 = 2 ∧ unit_inv (-4) 10 = .ok 3 ∧
    ¬ Int.fmod ((-4) * 3) 10 = 1 :=
  ⟨by decide, rfl, by decide⟩

/-- C8 (counterexample): the claimed cache consistency fails twice in the
code. `Polynomial([5], 10)` has degree 0 but caches leading coefficient 0
rather than its constant coefficient 5 (the constructor guards with
`deg > 0`); and the in-range write `p[1] = 3` on `Polynomial([1,2], 10)`
updates the stored sequence but leaves the cached leading coefficient at
its stale value 2. -/
theorem C8_cached_fields_counterexample :
    mkPolynomial [5] 10 false none = .ok pFive ∧
    pFive.deg = 0 ∧ pFive.lc = 0 ∧ pFive.coefs = [5] ∧ (0 : Int) ≠ 5 ∧
    setitem pOneTwo 1 3 = .ok ⟨[1, 3], 10, 1, 2, none⟩ ∧
    Polynomial.lc ⟨[1, 3], 10, 1, 2, none⟩ = 2 ∧
    List.getD (Polynomial.coefs ⟨[1, 3], 10, 1, 2, none⟩) 1 0 = 3 ∧
    (2 : Int) ≠ 3 :=
  ⟨rfl, rfl, rfl, rfl, by decide, rfl, rfl, rfl, by decide⟩

/-- C9 (counterexample): subtraction allocates `[0] * (new_len + 2)` for
the carries, not `new_len + 1` as claimed. For
`Polynomial([1], 10) - Polynomial([1], 10)` the result length is
`n = 1` and the attached carries array `[0, 0, 0]` has length 3, not
`n + 1 = 2`. -/
theorem C9_sub_carries_length_counterexample :
    mkPolynomial [1] 10 false none = .ok pOne10 ∧
    polySub pOne10 pOne10 = .ok ⟨[], 10, -1, 0, some [0, 0, 0]⟩ ∧
    ([0, 0, 0] : List Int).length ≠ (max pOne10.deg pOne10.deg + 1).toNat + 1 :=
  ⟨rfl, rfl, by decide⟩

/-- C7: every indexed write above the cached degree fails, for any value
of legal magnitude. The attempted `+=` extension either fails to broadcast
in place or leaves the array length unchanged, after which the store at
`key` is out of range; the claimed zero-extension never happens. -/
theorem C7_set_above_degree_always_fails (p : Polynomial) (key value : Int)
    (hkey : p.deg < key) (hval : |value| < p.base) :
    isError (setitem p key value) = true := by
  unfold setitem
  rw [if_neg (not_le.mpr hval), if_neg (not_le.mpr hkey)]
  dsimp only
  split <;> rfl

/-- C7 (witness): writing value 5 at index 2 of `Polynomial([1, 2], 10)`
(degree 1) raises. -/
theorem C7_witness :
    isError (setitem ⟨[1, 2], 10, 1, 2, none⟩ 2 5) = true :=
  C7_set_above_degree_always_fails ⟨[1, 2], 10, 1, 2, none⟩ 2 5 (by decide)
    (by decide)

/-- C10: indexed reads are total and zero-padded only for nonnegative
keys. A negative key satisfies `key ≤ deg`, so it is passed straight to
the numpy array and indexes from the end: `get(-1)` returns the last
stored coefficient of a nonzero polynomial, and raises `IndexError` on the
zero polynomial, whose trimmed array is empty. -/
theorem C10_getitem_negative_indexing (p : Polynomial)
    (hdeg : p.deg = (p.coefs.length : Int) - 1) :
    (∀ i : Int, i < 0 → getitem p i = npGetInt p.coefs i) ∧
    (∀ i : Int, 0 ≤ i → getitem p i = .ok (coefAt p i.toNat)) ∧
    (p.coefs ≠ [] → getitem p (-1) = .ok (p.coefs.getLastD 0)) ∧
    (p.coefs = [] → isError (getitem p (-1)) = true) := by
  refine ⟨?_, ?_, ?_, ?_⟩
  · intro i hi
    unfold getitem
    rw [if_pos (by omega)]
  · intro i hi
    unfold getitem coefAt npGetInt
    by_cases hle : i ≤ p.deg
    · have hlt : i.toNat < p.coefs.length := by omega
      rw [if_pos hle, if_pos hi, dif_pos hlt,
        if_pos (show ((i.toNat : Nat) : Int) ≤ p.deg by omega)]
      simp [List.getD_eq_getElem?_getD, List.getElem?_eq_getElem hlt]
    · rw [if_neg hle, if_neg (show ¬ ((i.toNat : Nat) : Int) ≤ p.deg by omega)]
  · intro hne
    have hlen : 0 < p.coefs.length := List.length_pos.mpr hne
    unfold getitem npGetInt
    rw [if_pos (show (-1 : Int) ≤ p.deg by omega),
      if_neg (show ¬ (0 : Int) ≤ -1 by norm_num),
      dif_pos (show 0 ≤ (p.coefs.length : Int) + -1 ∧
        ((p.coefs.length : Int) + -1).toNat < p.coefs.length by omega)]
    rw [List.getLastD_eq_getLast?, List.getLast?_eq_getElem?,
      List.getElem?_eq_getElem (show p.coefs.length - 1 < p.coefs.length by omega)]
    simp only [List.get_eq_getElem, Option.getD_some, Except.ok.injEq]
    congr 1
    omega
  · intro he
    have hd : p.deg = -1 := by rw [he] at hdeg; simpa using hdeg
    unfold getitem
    rw [if_pos (show (-1 : Int) ≤ p.deg by omega), he]
    rfl

/-- C10 (witness): `get(-1)` on `Polynomial([5, 2], 10)` returns the last
stored coefficient 2, and on the zero polynomial it raises. -/
theorem C10_witness :
    getitem ⟨[5, 2], 10, 1, 2, none⟩ (-1) = .ok 2 ∧
    isError (getitem ⟨[], 10, -1, 0, none⟩ (-1)) = true :=
  ⟨(C10_getitem_negative_indexing ⟨[5, 2], 10, 1, 2, none⟩ (by decide)).2.2.1
      (by decide),
   (C10_getitem_negative_indexing ⟨[], 10, -1, 0, none⟩ (by decide)).2.2.2 rfl⟩

/-- C8 (amended): after construction the cached degree equals the trimmed
length minus 1 and the cached leading coefficient equals the stored
coefficient at index `degree` when the degree is at least 1 and 0
otherwise (so a degree-0 polynomial caches 0, not its constant
coefficient); a successful in-place indexed write replaces the coefficient
array by an equal-length update and leaves both cached fields unchanged
(so the cached leading coefficient can go stale). -/
theorem C8_cached_fields_amended (coefs : List Int) (base : Int) (rev : Bool)
    (cs : Option (List Int)) (p : Polynomial)
    (h : mkPolynomial coefs base rev cs = .ok p) :
    (p.deg = (p.coefs.length : Int) - 1 ∧
     p.lc = (if 1 ≤ p.deg then p.coefs.getLastD 0 else 0)) ∧
    ∀ (key value : Int) (q : Polynomial), setitem p key value = .ok q →
      q.deg = p.deg ∧ q.lc = p.lc ∧ q.coefs.length = p.coefs.length := by
  obtain ⟨-, -, -, hdeg, hlc⟩ := mkPolynomial_fields h
  refine ⟨⟨hdeg, hlc⟩, ?_⟩
  intro key value q hq
  obtain ⟨h1, h2, -, h4⟩ := setitem_ok_fields hq
  exact ⟨h1, h2, h4⟩

/-- C8 (witness): `Polynomial([5], 10)` caches leading coefficient 0, and
after the in-range write `p[1] = 3` on `Polynomial([1, 2], 10)` the cached
leading coefficient is still 2. -/
theorem C8_witness :
    Polynomial.lc pFive = 0 ∧ Polynomial.lc ⟨[1, 3], 10, 1, 2, none⟩ = 2 :=
  ⟨(C8_cached_fields_amended [5] 10 false none pFive rfl).1.2,
   ((C8_cached_fields_amended [1, 2] 10 false none pOneTwo rfl).2 1 3
      ⟨[1, 3], 10, 1, 2, none⟩ rfl).2.1⟩

/-- C9 (amended): for same-base operands whose subtraction succeeds (the
result list must be nonempty, so not both operands are zero), the attached
carries array has length `n + 2` where `n = max(deg A, deg B) + 1` is the
result length - one more than the claimed `n + 1` - with entry 0 equal to
0, entry `i + 1` equal to `floor((A[i] - B[i]) / base)` for `i < n`, and
an extra trailing 0 entry. The `checkArray` and base-size hypotheses pin
the regime in which the unbounded-integer model agrees with the int64
numpy arithmetic. -/
theorem C9_sub_carries_amended (A B P : Polynomial)
    (hbase : B.base = A.base)
    (hA : checkArray A.coefs A.base = true)
    (hB : checkArray B.coefs B.base = true)
    (hsmall : A.base ≤ 2 ^ 62)
    (h : polySub A B = .ok P) :
    ∃ cs, P.carries = some cs ∧
      cs.length = (max A.deg B.deg + 1).toNat + 2 ∧
      cs.getD 0 1 = 0 ∧
      cs.getD ((max A.deg B.deg + 1).toNat + 1) 1 = 0 ∧
      ∀ i : Nat, i < (max A.deg B.deg + 1).toNat →
        cs.getD (i + 1) 1 = Int.fdiv (coefAt A i - coefAt B i) A.base := by
  unfold polySub at h
  rw [if_neg (not_ne_iff.mpr hbase)] at h
  dsimp only at h
  obtain ⟨-, -, hcar, -, -⟩ := mkPolynomial_fields h
  refine ⟨_, hcar, ?_, ?_, ?_, ?_⟩
  · simp only [List.length_append, List.length_cons, List.length_map,
      List.length_range, List.length_nil]
  · rw [List.getD_append _ _ _ _ (by simp)]
    rfl
  · rw [List.getD_append_right _ _ _ _ (by simp)]
    simp
  · intro i hi
    rw [List.getD_append _ _ _ _
      (by simp only [List.length_cons, List.length_map, List.length_range]; omega)]
    rw [List.getD_cons_succ, List.getD_eq_getElem?_getD, List.getElem?_map,
      List.getElem?_range hi]
    rfl

/-- C9 (witness): for `Polynomial([3,2,1], 10) - Polynomial([8], 10)` the
result length is 3 and the attached carries array has length 5. -/
theorem C9_witness :
    polySub pAdd10A pAdd10B = .ok pSubRes ∧
    ((Polynomial.carries pSubRes).getD []).length =
      (max pAdd10A.deg pAdd10B.deg + 1).toNat + 2 := by
  refine ⟨rfl, ?_⟩
  obtain ⟨cs, hcs, hlen, -, -, -⟩ :=
    C9_sub_carries_amended pAdd10A pAdd10B pSubRes rfl rfl rfl (by decide) rfl
  rw [hcs]
  simpa using hlen

/-- The invariants of the extended-Euclid loop of `unit_inv`, in the
regime reached from nonnegative arguments: the remainders stay
nonnegative, the gcd of the remainder pair is preserved, both remainders
stay Bezout combinations of `b` and `u`, the tracked coefficients have
alternating signs with `|t1| * r + |t| * r1 = b`, and the tracked
coefficient is bounded by `b`. Under these invariants the loop returns the
gcd together with a Bezout coefficient bounded by `b`. -/
theorem unitInvLoop_ok (b u : Int) (hb : 2 ≤ b) :
    ∀ (fuel : Nat) (t t1 r r1 s s1 : Int),
      0 < r → 0 ≤ r1 → r1.toNat < fuel →
      Int.gcd r r1 = Int.gcd b u →
      s * b + t * u = r → s1 * b + t1 * u = r1 →
      t * t1 ≤ 0 → |t1| * r + |t| * r1 = b → |t| ≤ b →
      ∃ T S, unitInvLoop fuel t t1 r r1 = .ok (T, ((Int.gcd b u : Nat) : Int)) ∧
        S * b + T * u = ((Int.gcd b u : Nat) : Int) ∧ |T| ≤ b := by
  intro fuel
  induction fuel with
  | zero =>
    intro t t1 r r1 s s1 _ _ hfuel _ _ _ _ _ _
    omega
  | succ f ih =>
    intro t t1 r r1 s s1 hr hr1 hfuel hgcd hbez hbez1 hsign hsum ht
    by_cases hz : r1 = 0
    · subst hz
      have hreq : r = ((Int.gcd b u : Nat) : Int) := by
        rw [← hgcd, Int.gcd_zero_right, Int.natAbs_of_nonneg (le_of_lt hr)]
      refine ⟨t, s, ?_, ?_, ht⟩
      · simp only [unitInvLoop]
        rw [hreq]
        simp
      · rw [← hreq]
        exact hbez
    · have hr1pos : 0 < r1 := lt_of_le_of_ne hr1 (Ne.symm hz)
      have hfd : Int.fdiv r r1 = r / r1 := Int.fdiv_eq_ediv r (le_of_lt hr1pos)
      have hqnn : 0 ≤ r / r1 := Int.ediv_nonneg (le_of_lt hr) (le_of_lt hr1pos)
      have hmod : r - r / r1 * r1 = r % r1 := by
        rw [Int.emod_def]
        ring
      have hmodnn : 0 ≤ r % r1 := Int.emod_nonneg r hz
      have hmodlt : r % r1 < r1 := Int.emod_lt_of_pos r hr1pos
      simp only [unitInvLoop]
      rw [if_neg hz, hfd]
      have habs : |t - r / r1 * t1| = |t| + r / r1 * |t1| := by
        have h0 : t * (r / r1 * t1) ≤ 0 := by
          have h1 : r / r1 * (t * t1) ≤ 0 :=
            mul_nonpos_of_nonneg_of_nonpos hqnn hsign
          nlinarith [h1]
        rw [abs_sub_of_mul_nonpos h0, abs_mul, abs_of_nonneg hqnn]
      apply ih t1 (t - r / r1 * t1) r1 (r - r / r1 * r1) s1 (s - r / r1 * s1)
        hr1pos
      · rw [hmod]
        exact hmodnn
      · rw [hmod]
        omega
      · rw [hmod, gcd_step (le_of_lt hr) hr1pos]
        exact hgcd
      · exact hbez1
      · linear_combination hbez - (r / r1) * hbez1
      · nlinarith [hsign, mul_nonneg hqnn (mul_self_nonneg t1)]
      · rw [habs]
        linear_combination hsum
      · nlinarith [hsum, mul_nonneg (abs_nonneg t1) (by omega : (0 : Int) ≤ r - 1),
          mul_nonneg (abs_nonneg t) hr1]

/-- C6 (amended): restricted to nonnegative units `u` (the claim fails for
negative units, see the counterexample), `unit_inv` behaves as specified:
for `u` coprime with `b ≥ 2` it returns `t` in `[0, b)` with
`(u * t) % b == 1`, and for `gcd(u, b) > 1` it raises. -/
theorem C6_unit_inv_amended (u b : Int) (hu : 0 ≤ u) (hb : 2 ≤ b) :
    (Int.gcd u b = 1 →
      ∃ t, unit_inv u b = .ok t ∧ 0 ≤ t ∧ t < b ∧ Int.fmod (u * t) b = 1) ∧
    (Int.gcd u b ≠ 1 → unit_inv u b = .error "Passed unit is not invertible!") := by
  obtain ⟨T, S, hloop, hbez, habs⟩ :=
    unitInvLoop_ok b u hb (u.natAbs + 1) 0 1 b u 1 0
      (by omega) hu (by omega) rfl (by ring) (by ring) (by norm_num)
      (by simp) (by simp only [abs_zero]; omega)
  have hdef : unit_inv u b =
      if ((Int.gcd b u : Nat) : Int) > 1 then
        .error "Passed unit is not invertible!"
      else .ok (if T < 0 then T + b else T) := by
    unfold unit_inv
    rw [hloop]
  constructor
  · intro h1
    have hg : Int.gcd b u = 1 := by
      rw [Int.gcd_comm]
      exact h1
    rw [hg] at hbez
    have hbez1 : S * b + T * u = 1 := by exact_mod_cast hbez
    have hTneb : T ≠ b := by
      intro hTb
      rw [hTb] at hbez1
      have hdvd : b ∣ 1 := ⟨S + u, by linear_combination - hbez1⟩
      have := Int.le_of_dvd one_pos hdvd
      omega
    have hrange := abs_le.mp habs
    rw [hdef, hg, if_neg (by norm_num)]
    refine ⟨if T < 0 then T + b else T, rfl, ?_, ?_, ?_⟩
    · split <;> omega
    · split <;> omega
    · rw [Int.fmod_eq_emod _ (by omega : (0 : Int) ≤ b)]
      by_cases hT : T < 0
      · rw [if_pos hT]
        have he : u * (T + b) = 1 + b * (u - S) := by linear_combination hbez1
        rw [he, Int.add_mul_emod_self_left,
          Int.emod_eq_of_lt (by norm_num) (by omega)]
      · rw [if_neg hT]
        have he : u * T = 1 + b * (-S) := by linear_combination hbez1
        rw [he, Int.add_mul_emod_self_left,
          Int.emod_eq_of_lt (by norm_num) (by omega)]
  · intro hne
    have h0 : Int.gcd b u ≠ 0 := by
      intro h
      rw [Int.gcd_eq_zero_iff] at h
      omega
    have h1 : Int.gcd b u ≠ 1 := by
      rw [Int.gcd_comm]
      exact hne
    rw [hdef, if_pos (by exact_mod_cast (show 1 < Int.gcd b u by omega))]

/-- C6 (witness): `unit_inv(3, 7) = 5`, and `unit_inv(2, 4)` raises since
`gcd(2, 4) = 2`. -/
theorem C6_witness :
    unit_inv 3 7 = .ok 5 ∧
    unit_inv 2 4 = .error "Passed unit is not invertible!" :=
  ⟨rfl, (C6_unit_inv_amended 2 4 (by norm_num) (by norm_num)).2 (by decide)⟩

end CompAlg
